import Mathlib

/-!
Verification model of the battery-viewer repository (a Web Serial battery
monitor).  The JavaScript sources are shallowly embedded:

* text ("strings") is modelled as `List Char`;
* JavaScript numbers are modelled as exact rationals (`ℚ`) — the source
  only compares, adds and subtracts decimal literals and parsed decimal
  values, and every claim under study is about that arithmetic, so the
  rational model is used in place of IEEE doubles;
* the stateful serial-reader logic is modelled by pure state-passing
  functions, with the effects of the Web Serial API abstracted into an
  explicit external-resource record and a failure environment.

Each definition carries a note naming the source construct it embeds.
-/

namespace BatteryViewer

/-! ## Framer (src/serial-reader.js, `processData`, lines 161-185)

`String.prototype.split` with a non-empty literal separator scans the
string left to right and splits at each non-overlapping occurrence of the
separator.  `splitF` implements that scan.  The extra `Nat` argument is
fuel (always instantiated with the length of the input, see `splitOnL`),
which makes the function structurally recursive and hence reducible by
the kernel. -/

/-- Prepend a character to the first segment of a split result (the
helper used by the scanning step of `splitF` when the separator does not
start at the current position). -/
def consH (c : Char) : List (List Char) → List (List Char)
  | [] => [[c]]
  | p :: ps => (c :: p) :: ps

/-- Fuel-indexed splitter: `splitF c0 sr fuel s` splits `s` at each
left-to-right non-overlapping occurrence of the separator `c0 :: sr`.
On a match the scan jumps past the whole separator, i.e. it drops
`sr.length` further characters of the tail. -/
def splitF (c0 : Char) (sr : List Char) : Nat → List Char → List (List Char)
  | _, [] => [[]]
  | 0, s => [s]
  | fuel + 1, c :: rest =>
    if (c0 :: sr).isPrefixOf (c :: rest) then
      [] :: splitF c0 sr fuel (rest.drop sr.length)
    else
      consH c (splitF c0 sr fuel rest)

/-- JS `buffer.split(separator)` (src/serial-reader.js:167), for an
arbitrary separator.  The empty separator never occurs in the source and
is mapped to the identity split. -/
def splitOnL (sep s : List Char) : List (List Char) :=
  match sep with
  | [] => [s]
  | c0 :: sr => splitF c0 sr s.length s

/-- The fuel argument of `splitF` is irrelevant as long as it dominates
the length of the input. -/
theorem splitF_fuel (c0 : Char) (sr : List Char) :
    ∀ f g s, s.length ≤ f → s.length ≤ g → splitF c0 sr f s = splitF c0 sr g s := by
  intro f
  induction f with
  | zero =>
    intro g s hf _
    have hs : s = [] := List.eq_nil_of_length_eq_zero (Nat.le_zero.mp hf)
    subst hs
    cases g <;> rfl
  | succ f ih =>
    intro g s hf hg
    match s, g with
    | [], g => cases g <;> rfl
    | c :: rest, 0 => simp at hg
    | c :: rest, g + 1 =>
      simp only [splitF]
      have hrf : rest.length ≤ f := Nat.le_of_succ_le_succ (by simpa using hf)
      have hrg : rest.length ≤ g := Nat.le_of_succ_le_succ (by simpa using hg)
      by_cases hp : (c0 :: sr).isPrefixOf (c :: rest) = true
      · simp only [if_pos hp]
        have hd : (rest.drop sr.length).length ≤ rest.length := by
          simp [List.length_drop]
        rw [ih g (rest.drop sr.length) (le_trans hd hrf) (le_trans hd hrg)]
      · simp only [if_neg hp]
        rw [ih g rest hrf hrg]

/-- Unfolding equation of `splitOnL` on the empty string. -/
theorem splitOnL_nil (c0 : Char) (sr : List Char) : splitOnL (c0 :: sr) [] = [[]] := rfl

/-- Unfolding equation of `splitOnL` when the separator occurs at the
current position: emit a segment boundary and continue past it. -/
theorem splitOnL_cons_pos (c0 : Char) (sr : List Char) (c : Char) (rest : List Char)
    (h : (c0 :: sr).isPrefixOf (c :: rest) = true) :
    splitOnL (c0 :: sr) (c :: rest) = [] :: splitOnL (c0 :: sr) (rest.drop sr.length) := by
  show splitF c0 sr (rest.length + 1) (c :: rest) = _
  simp only [splitF]
  rw [if_pos h]
  have hd : (rest.drop sr.length).length ≤ rest.length := by simp [List.length_drop]
  rw [splitF_fuel c0 sr rest.length (rest.drop sr.length).length (rest.drop sr.length) hd le_rfl]
  rfl

/-- Unfolding equation of `splitOnL` when the separator does not occur at
the current position: keep the character in the first segment. -/
theorem splitOnL_cons_neg (c0 : Char) (sr : List Char) (c : Char) (rest : List Char)
    (h : (c0 :: sr).isPrefixOf (c :: rest) = false) :
    splitOnL (c0 :: sr) (c :: rest) = consH c (splitOnL (c0 :: sr) rest) := by
  show splitF c0 sr (rest.length + 1) (c :: rest) = _
  simp only [splitF]
  rw [if_neg (by simp [h])]
  rfl

theorem consH_ne_nil (c : Char) (l : List (List Char)) : consH c l ≠ [] := by
  cases l <;> simp [consH]

/-- A list is a `isPrefixOf`-prefix of itself followed by anything. -/
theorem isPrefixOf_self_append (l t : List Char) : l.isPrefixOf (l ++ t) = true := by
  induction l with
  | nil => simp
  | cons c cs ih => simp [List.isPrefixOf_cons₂, ih]

/-- `isPrefixOf` fails when the head characters differ. -/
theorem isPrefixOf_head_ne (c0 c : Char) (sr rest : List Char) (h : c0 ≠ c) :
    (c0 :: sr).isPrefixOf (c :: rest) = false := by
  simp [List.isPrefixOf_cons₂, h]

/-- A split always produces at least one segment. -/
theorem splitOnL_ne_nil (sep s : List Char) : splitOnL sep s ≠ [] := by
  match sep with
  | [] => simp [splitOnL]
  | c0 :: sr =>
    induction s with
    | nil => simp [splitOnL_nil]
    | cons c rest _ =>
      by_cases hp : (c0 :: sr).isPrefixOf (c :: rest) = true
      · rw [splitOnL_cons_pos c0 sr c rest hp]; simp
      · rw [splitOnL_cons_neg c0 sr c rest (Bool.eq_false_iff.mpr hp)]
        exact consH_ne_nil c _

/-- A split with a single segment returns its input as that segment. -/
theorem splitOnL_single (c0 : Char) (sr : List Char) :
    ∀ s p, splitOnL (c0 :: sr) s = [p] → p = s := by
  intro s
  induction s with
  | nil => intro p hp; rw [splitOnL_nil] at hp; simpa using hp.symm
  | cons c rest ih =>
    intro p hp
    by_cases hc : (c0 :: sr).isPrefixOf (c :: rest) = true
    · rw [splitOnL_cons_pos c0 sr c rest hc] at hp
      obtain ⟨-, habs⟩ := List.cons_eq_cons.mp hp
      exact absurd habs (splitOnL_ne_nil _ _)
    · rw [splitOnL_cons_neg c0 sr c rest (Bool.eq_false_iff.mpr hc)] at hp
      cases hq : splitOnL (c0 :: sr) rest with
      | nil => exact absurd hq (splitOnL_ne_nil _ _)
      | cons q qs =>
        rw [hq] at hp
        cases qs with
        | nil =>
          simp only [consH] at hp
          obtain ⟨hpq, -⟩ := List.cons_eq_cons.mp hp
          simp [← hpq, ih q hq]
        | cons q2 qs2 =>
          have hlen := congrArg List.length hp
          simp [consH] at hlen

/-- If the leading separator character does not occur in `s`, the split
is trivial. -/
theorem splitOnL_no_head (c0 : Char) (sr : List Char) :
    ∀ s, c0 ∉ s → splitOnL (c0 :: sr) s = [s] := by
  intro s
  induction s with
  | nil => intro _; exact splitOnL_nil c0 sr
  | cons c rest ih =>
    intro hmem
    have hc : c0 ≠ c := fun h => hmem (h ▸ List.mem_cons_self c rest)
    have hp : (c0 :: sr).isPrefixOf (c :: rest) = false := isPrefixOf_head_ne c0 c sr rest hc
    rw [splitOnL_cons_neg c0 sr c rest hp, ih (fun h => hmem (List.mem_cons_of_mem c h))]
    rfl

/-- Splits are insensitive to prepending separator-free text: the
prepended text just extends the first segment. -/
theorem splitOnL_prepend (c0 : Char) (sr : List Char) :
    ∀ x s, c0 ∉ x →
      splitOnL (c0 :: sr) (x ++ s) =
        (x ++ (splitOnL (c0 :: sr) s).headD []) :: (splitOnL (c0 :: sr) s).tail := by
  intro x
  induction x with
  | nil =>
    intro s _
    cases hq : splitOnL (c0 :: sr) s with
    | nil => exact absurd hq (splitOnL_ne_nil _ _)
    | cons q qs => simp [hq]
  | cons c x ih =>
    intro s hmem
    have hc : c0 ≠ c := fun h => hmem (h ▸ List.mem_cons_self c x)
    have hp : (c0 :: sr).isPrefixOf (c :: (x ++ s)) = false := isPrefixOf_head_ne c0 c sr (x ++ s) hc
    rw [List.cons_append, splitOnL_cons_neg c0 sr c (x ++ s) hp,
      ih s (fun h => hmem (List.mem_cons_of_mem c h))]
    rfl

/-- Splitting a string that starts with the separator emits an empty
first segment. -/
theorem splitOnL_sep_start (c0 : Char) (sr : List Char) (s : List Char) :
    splitOnL (c0 :: sr) ((c0 :: sr) ++ s) = [] :: splitOnL (c0 :: sr) s := by
  have hp : (c0 :: sr).isPrefixOf (c0 :: (sr ++ s)) = true := isPrefixOf_self_append (c0 :: sr) s
  rw [List.cons_append, splitOnL_cons_pos c0 sr c0 (sr ++ s) hp, List.drop_left sr s]

theorem isPrefixOf_length_le : ∀ (l s : List Char), l.isPrefixOf s = true → l.length ≤ s.length
  | [], _, _ => by simp
  | a :: as, [], h => by simp at h
  | a :: as, b :: bs, h => by
    simp only [List.isPrefixOf_cons₂, Bool.and_eq_true] at h
    simpa using isPrefixOf_length_le as bs h.2

theorem isPrefixOf_extend : ∀ (l s t : List Char), l.isPrefixOf s = true → l.isPrefixOf (s ++ t) = true
  | [], _, _, _ => by simp
  | a :: as, [], _, h => by simp at h
  | a :: as, b :: bs, t, h => by
    simp only [List.cons_append, List.isPrefixOf_cons₂, Bool.and_eq_true] at h ⊢
    exact ⟨h.1, isPrefixOf_extend as bs t h.2⟩

theorem isPrefixOf_restrict : ∀ (l s t : List Char),
    l.isPrefixOf (s ++ t) = true → l.length ≤ s.length → l.isPrefixOf s = true
  | [], _, _, _, _ => by simp
  | a :: as, [], _, _, hl => by simp at hl
  | a :: as, b :: bs, t, h, hl => by
    simp only [List.cons_append, List.isPrefixOf_cons₂, Bool.and_eq_true] at h ⊢
    exact ⟨h.1, isPrefixOf_restrict as bs t h.2 (Nat.le_of_succ_le_succ (by simpa using hl))⟩

/-- A string shorter than the separator is not split. -/
theorem splitOnL_short (c0 : Char) (sr : List Char) :
    ∀ s, s.length < (c0 :: sr).length → splitOnL (c0 :: sr) s = [s] := by
  intro s
  induction s with
  | nil => intro _; exact splitOnL_nil c0 sr
  | cons c rest ih =>
    intro hlt
    have hps : (c0 :: sr).isPrefixOf (c :: rest) = false := by
      by_contra h
      have := isPrefixOf_length_le (c0 :: sr) (c :: rest) (by simpa using h)
      omega
    rw [splitOnL_cons_neg c0 sr c rest hps, ih (by simp at hlt ⊢; omega)]
    rfl

/-- For a non-empty list, `getLastD` is independent of the default. -/
theorem getLastD_irrel (q : List Char) (qs : List (List Char)) (d d2 : List Char) :
    (q :: qs).getLastD d = (q :: qs).getLastD d2 := by
  rw [List.getLastD_cons, List.getLastD_cons]

/-- Key compositional property of the left-to-right split: appending more
text re-splits only the last segment; completed segments are final. -/
theorem splitOnL_append (c0 : Char) (sr : List Char) :
    ∀ s t, splitOnL (c0 :: sr) (s ++ t) =
      (splitOnL (c0 :: sr) s).dropLast ++
        splitOnL (c0 :: sr) ((splitOnL (c0 :: sr) s).getLastD [] ++ t) := by
  have main : ∀ n s t, s.length ≤ n → splitOnL (c0 :: sr) (s ++ t) =
      (splitOnL (c0 :: sr) s).dropLast ++
        splitOnL (c0 :: sr) ((splitOnL (c0 :: sr) s).getLastD [] ++ t) := by
    intro n
    induction n with
    | zero =>
      intro s t hs
      have hnil : s = [] := List.eq_nil_of_length_eq_zero (Nat.le_zero.mp hs)
      subst hnil
      simp [splitOnL_nil]
    | succ n ih =>
      intro s t hs
      match s with
      | [] => simp [splitOnL_nil]
      | c :: rest =>
        have hsucc : rest.length ≤ n := Nat.le_of_succ_le_succ (by simpa using hs)
        by_cases hps : (c0 :: sr).isPrefixOf (c :: rest) = true
        · have hsr : sr.length ≤ rest.length := by
            have := isPrefixOf_length_le (c0 :: sr) (c :: rest) hps
            simpa using this
          have hpt : (c0 :: sr).isPrefixOf (c :: (rest ++ t)) = true :=
            isPrefixOf_extend (c0 :: sr) (c :: rest) t hps
          rw [List.cons_append, splitOnL_cons_pos c0 sr c (rest ++ t) hpt,
            List.drop_append_of_le_length hsr,
            ih (rest.drop sr.length) t (by simp [List.length_drop]; omega),
            splitOnL_cons_pos c0 sr c rest hps]
          cases hq : splitOnL (c0 :: sr) (rest.drop sr.length) with
          | nil => exact absurd hq (splitOnL_ne_nil _ _)
          | cons q qs => simp [hq, List.getLastD_cons]
        · by_cases hpt : (c0 :: sr).isPrefixOf (c :: (rest ++ t)) = true
          · -- the separator only matches with help from `t`, so `s` is
            -- shorter than the separator and survives as a single segment
            have hlt : (c :: rest).length < (c0 :: sr).length := by
              by_contra hge
              exact absurd
                (isPrefixOf_restrict (c0 :: sr) (c :: rest) t hpt (by omega)) (by simp [hps])
            rw [splitOnL_short c0 sr (c :: rest) hlt]
            simp
          · rw [List.cons_append, splitOnL_cons_neg c0 sr c (rest ++ t) (Bool.eq_false_iff.mpr hpt),
              ih rest t hsucc,
              splitOnL_cons_neg c0 sr c rest (Bool.eq_false_iff.mpr hps)]
            cases hq : splitOnL (c0 :: sr) rest with
            | nil => exact absurd hq (splitOnL_ne_nil _ _)
            | cons q qs =>
              cases qs with
              | nil =>
                have hqr : q = rest := splitOnL_single c0 sr rest q hq
                subst hqr
                simp only [consH, List.dropLast_single, List.getLastD_cons, List.getLastD_nil,
                  List.nil_append, List.cons_append]
                rw [splitOnL_cons_neg c0 sr c (q ++ t) (Bool.eq_false_iff.mpr hpt)]
                rfl
              | cons q2 qs2 =>
                simp [consH, List.getLastD_cons]
  intro s t
  exact main s.length s t le_rfl

/-- Decides whether `pat` occurs as a contiguous substring of the second
argument (the notion of occurrence used by JS `indexOf`/`split`). -/
def hasInfix (pat : List Char) : List Char → Bool
  | [] => pat.isEmpty
  | c :: rest => pat.isPrefixOf (c :: rest) || hasInfix pat rest

/-- A string with no occurrence of the separator is not split. -/
theorem splitOnL_no_occur (c0 : Char) (sr : List Char) :
    ∀ s, hasInfix (c0 :: sr) s = false → splitOnL (c0 :: sr) s = [s] := by
  intro s
  induction s with
  | nil => intro _; exact splitOnL_nil c0 sr
  | cons c rest ih =>
    intro h
    simp only [hasInfix, Bool.or_eq_false_iff] at h
    rw [splitOnL_cons_neg c0 sr c rest h.1, ih h.2]
    rfl

/-- The segment retained after a split (the last one) never contains an
occurrence of the separator. -/
theorem splitOnL_last_no_occur (c0 : Char) (sr : List Char) :
    ∀ s, hasInfix (c0 :: sr) ((splitOnL (c0 :: sr) s).getLastD []) = false := by
  have main : ∀ n s, s.length ≤ n →
      hasInfix (c0 :: sr) ((splitOnL (c0 :: sr) s).getLastD []) = false := by
    intro n
    induction n with
    | zero =>
      intro s hs
      have hnil : s = [] := List.eq_nil_of_length_eq_zero (Nat.le_zero.mp hs)
      subst hnil
      rw [splitOnL_nil]
      rfl
    | succ n ih =>
      intro s hs
      match s with
      | [] => rw [splitOnL_nil]; rfl
      | c :: rest =>
        have hsucc : rest.length ≤ n := Nat.le_of_succ_le_succ (by simpa using hs)
        by_cases hps : (c0 :: sr).isPrefixOf (c :: rest) = true
        · rw [splitOnL_cons_pos c0 sr c rest hps, List.getLastD_cons]
          have hd : (rest.drop sr.length).length ≤ n := by
            simp only [List.length_drop]
            omega
          have := ih (rest.drop sr.length) hd
          cases hq : splitOnL (c0 :: sr) (rest.drop sr.length) with
          | nil => exact absurd hq (splitOnL_ne_nil _ _)
          | cons q qs =>
            rw [hq] at this
            rw [getLastD_irrel q qs [] []]
            exact this
        · rw [splitOnL_cons_neg c0 sr c rest (Bool.eq_false_iff.mpr hps)]
          have hrest := ih rest hsucc
          cases hq : splitOnL (c0 :: sr) rest with
          | nil => exact absurd hq (splitOnL_ne_nil _ _)
          | cons q qs =>
            rw [hq] at hrest
            cases qs with
            | nil =>
              have hqr : q = rest := splitOnL_single c0 sr rest q hq
              subst hqr
              simp only [consH, List.getLastD_cons, List.getLastD_nil] at hrest ⊢
              simp [hasInfix, hps, hrest]
            | cons q2 qs2 =>
              simp only [consH, List.getLastD_cons] at hrest ⊢
              exact hrest
  intro s
  exact main s.length s le_rfl

/-- Appends on the right only re-split the last segment; earlier
segments and their records are final (corollary shape used below). -/
theorem getLastD_append_right (l : List (List Char)) (q : List Char) (qs : List (List Char))
    (d : List Char) : (l ++ q :: qs).getLastD d = (q :: qs).getLastD d := by
  induction l generalizing d with
  | nil => rfl
  | cons a l ih =>
    rw [List.cons_append, List.getLastD_cons, ih a]
    exact getLastD_irrel q qs a d

/-! ### The Framer state machine

`separator` is the record separator literal of src/serial-reader.js:166,
a line of 58 equals signs.  `feed` is `processData` (lines 161-185): it
appends the chunk to the buffer, splits on the separator, emits every
segment but the last (trimmed, skipping empty ones, in order) and keeps
the last segment as the new buffer, resetting the buffer to empty when
its length exceeds 10000. -/

def sepTail : List Char := List.replicate 57 '='

def separator : List Char := '=' :: sepTail

theorem separator_def : separator = '=' :: sepTail := rfl

/-- The whitespace class removed by JS `String.prototype.trim`
(ASCII whitespace plus the Unicode space separators and BOM). -/
def isTrimWS (c : Char) : Bool :=
  c = ' ' || c = '\t' || c = '\n' || c = '\r' || c = '\x0b' || c = '\x0c' ||
  c = '\u00A0' || c = '\u1680' || ('\u2000' ≤ c && c ≤ '\u200A') ||
  c = '\u2028' || c = '\u2029' || c = '\u202F' || c = '\u205F' ||
  c = '\u3000' || c = '\uFEFF'

/-- JS `reading.trim()` (src/serial-reader.js:171). -/
def trimL (s : List Char) : List Char :=
  ((s.dropWhile isTrimWS).reverse.dropWhile isTrimWS).reverse

/-- The records dispatched by one `processData` call: all segments except
the last, trimmed, with empty results skipped (`if (reading && ...)`). -/
def recordsOf (parts : List (List Char)) : List (List Char) :=
  (parts.dropLast.map trimL).filter (fun r => !r.isEmpty)

/-- `processData` (src/serial-reader.js:161-185): returns the emitted
records and the new buffer. -/
def feed (buf chunk : List Char) : List (List Char) × List Char :=
  let parts := splitOnL separator (buf ++ chunk)
  let newBuf := parts.getLastD []
  (recordsOf parts, if 10000 < newBuf.length then [] else newBuf)

/-- `processData` without the buffer-overflow cap (the behaviour the
specification describes for chunk-boundary independence). -/
def feedNoCap (buf chunk : List Char) : List (List Char) × List Char :=
  let parts := splitOnL separator (buf ++ chunk)
  (recordsOf parts, parts.getLastD [])

/-- Feeding a sequence of chunks one call at a time, concatenating all
emitted records in order. -/
def feedAll (buf : List Char) : List (List Char) → List (List Char) × List Char
  | [] => ([], buf)
  | ch :: rest =>
    let r1 := feed buf ch
    let r2 := feedAll r1.2 rest
    (r1.1 ++ r2.1, r2.2)

/-- Same, for the uncapped framer. -/
def feedAllNoCap (buf : List Char) : List (List Char) → List (List Char) × List Char
  | [] => ([], buf)
  | ch :: rest =>
    let r1 := feedNoCap buf ch
    let r2 := feedAllNoCap r1.2 rest
    (r1.1 ++ r2.1, r2.2)

/-- Decides that the overflow reset is never triggered while feeding the
given chunks starting from the given buffer. -/
def noResetB (buf : List Char) : List (List Char) → Bool
  | [] => true
  | ch :: rest =>
    ((splitOnL separator (buf ++ ch)).getLastD []).length ≤ 10000 &&
      noResetB (feed buf ch).2 rest

theorem feed_records_eq_noCap (buf chunk : List Char) :
    (feed buf chunk).1 = (feedNoCap buf chunk).1 := rfl

/-- The buffer retained by the (uncapped) framer never contains a
separator occurrence. -/
theorem feedNoCap_buffer_no_occur (buf chunk : List Char) :
    hasInfix separator (feedNoCap buf chunk).2 = false := by
  show hasInfix separator ((splitOnL separator (buf ++ chunk)).getLastD []) = false
  rw [separator_def]
  exact splitOnL_last_no_occur '=' sepTail (buf ++ chunk)

theorem recordsOf_append (x q : List (List Char)) (hq : q ≠ []) :
    recordsOf (x ++ q) = (x.map trimL).filter (fun r => !r.isEmpty) ++ recordsOf q := by
  unfold recordsOf
  rw [List.dropLast_append_of_ne_nil x hq, List.map_append, List.filter_append]

/-- Gluing lemma: one `feed` of `ch ++ t` is one `feed` of `ch` followed
by one `feed` of `t` from the retained buffer (uncapped framer). -/
theorem feedNoCap_glue (buf ch t : List Char) :
    feedNoCap buf (ch ++ t) =
      ((feedNoCap buf ch).1 ++ (feedNoCap (feedNoCap buf ch).2 t).1,
        (feedNoCap (feedNoCap buf ch).2 t).2) := by
  show (recordsOf (splitOnL separator (buf ++ (ch ++ t))),
      (splitOnL separator (buf ++ (ch ++ t))).getLastD []) = _
  have hassoc : buf ++ (ch ++ t) = (buf ++ ch) ++ t := (List.append_assoc buf ch t).symm
  rw [hassoc, separator_def, splitOnL_append '=' sepTail (buf ++ ch) t]
  cases hq : splitOnL ('=' :: sepTail) ((splitOnL ('=' :: sepTail) (buf ++ ch)).getLastD [] ++ t) with
  | nil => exact absurd hq (splitOnL_ne_nil _ _)
  | cons q qs =>
    rw [recordsOf_append _ _ (by simp), getLastD_append_right]
    show ((((splitOnL ('=' :: sepTail) (buf ++ ch)).dropLast.map trimL).filter
        (fun r => !r.isEmpty)) ++ recordsOf (q :: qs), (q :: qs).getLastD []) = _
    unfold feedNoCap
    rw [separator_def, hq]
    rfl

/-- Feeding chunks one at a time through the uncapped framer is feeding
their concatenation at once, provided the starting buffer is
separator-free. -/
theorem feedAllNoCap_flatten :
    ∀ chunks buf, hasInfix separator buf = false →
      feedAllNoCap buf chunks = feedNoCap buf chunks.flatten := by
  intro chunks
  induction chunks with
  | nil =>
    intro buf hbuf
    show ([], buf) = feedNoCap buf [].flatten
    rw [separator_def] at hbuf
    unfold feedNoCap
    rw [List.flatten_nil, List.append_nil, separator_def,
      splitOnL_no_occur '=' sepTail buf hbuf]
    rfl
  | cons ch rest ih =>
    intro buf _
    have hb2 : hasInfix separator (feedNoCap buf ch).2 = false :=
      feedNoCap_buffer_no_occur buf ch
    show ((feedNoCap buf ch).1 ++ (feedAllNoCap (feedNoCap buf ch).2 rest).1,
        (feedAllNoCap (feedNoCap buf ch).2 rest).2) = feedNoCap buf (ch :: rest).flatten
    rw [ih _ hb2, List.flatten_cons, feedNoCap_glue buf ch rest.flatten]

/-- When the retained segment stays within the cap, the capped and
uncapped framers agree. -/
theorem feed_eq_noCap_of_small (buf ch : List Char)
    (h : ((splitOnL separator (buf ++ ch)).getLastD []).length ≤ 10000) :
    feed buf ch = feedNoCap buf ch := by
  show (recordsOf (splitOnL separator (buf ++ ch)),
      if 10000 < ((splitOnL separator (buf ++ ch)).getLastD []).length then []
      else (splitOnL separator (buf ++ ch)).getLastD []) = _
  rw [if_neg (by omega)]
  rfl

/-- While the overflow reset never fires, the capped framer behaves as
the uncapped one. -/
theorem feedAll_eq_noCap :
    ∀ chunks buf, noResetB buf chunks = true → feedAll buf chunks = feedAllNoCap buf chunks := by
  intro chunks
  induction chunks with
  | nil => intro buf _; rfl
  | cons ch rest ih =>
    intro buf h
    simp only [noResetB, Bool.and_eq_true, decide_eq_true_eq] at h
    have hfe : feed buf ch = feedNoCap buf ch := feed_eq_noCap_of_small buf ch h.1
    have h2 : noResetB (feedNoCap buf ch).2 rest = true := by rw [← hfe]; exact h.2
    show ((feed buf ch).1 ++ (feedAll (feed buf ch).2 rest).1, (feedAll (feed buf ch).2 rest).2) =
      ((feedNoCap buf ch).1 ++ (feedAllNoCap (feedNoCap buf ch).2 rest).1,
        (feedAllNoCap (feedNoCap buf ch).2 rest).2)
    rw [hfe, ih _ h2]

theorem dropWhile_eq_self_of (p : Char → Bool) (s : List Char)
    (h : ∀ c ∈ s, p c = false) : s.dropWhile p = s := by
  cases s with
  | nil => rfl
  | cons a l =>
    rw [List.dropWhile_cons, if_neg]
    simp [h a (List.mem_cons_self a l)]

theorem trimL_eq_self (s : List Char) (h : ∀ c ∈ s, isTrimWS c = false) : trimL s = s := by
  unfold trimL
  rw [dropWhile_eq_self_of isTrimWS s h,
    dropWhile_eq_self_of isTrimWS s.reverse (fun c hc => h c (List.mem_reverse.mp hc)),
    List.reverse_reverse]

/-- A pathological chunk: 10001 characters with no separator, which
trips the processData buffer cap. -/
def bigChunk : List Char := List.replicate 10001 'a'

theorem feed_fst (buf ch : List Char) :
    (feed buf ch).1 = recordsOf (splitOnL separator (buf ++ ch)) := rfl

theorem feed_snd (buf ch : List Char) :
    (feed buf ch).2 =
      if 10000 < ((splitOnL separator (buf ++ ch)).getLastD []).length then []
      else (splitOnL separator (buf ++ ch)).getLastD [] := rfl

theorem not_mem_bigChunk : '=' ∉ bigChunk := by
  intro hmem
  unfold bigChunk at hmem
  rw [List.mem_replicate] at hmem
  exact absurd hmem.2 (by decide)

theorem bigChunk_length : bigChunk.length = 10001 := by
  unfold bigChunk
  exact List.length_replicate 10001 'a'

theorem splitOnL_bigChunk : splitOnL separator bigChunk = [bigChunk] := by
  rw [separator_def]
  exact splitOnL_no_head '=' sepTail bigChunk not_mem_bigChunk

theorem feed_bigChunk_fst : (feed [] bigChunk).1 = [] := by
  rw [feed_fst, List.nil_append, splitOnL_bigChunk]
  rfl

theorem feed_bigChunk_snd : (feed [] bigChunk).2 = [] := by
  rw [feed_snd, List.nil_append, splitOnL_bigChunk]
  rw [show ([bigChunk].getLastD ([] : List Char)) = bigChunk from rfl]
  rw [if_pos (by rw [bigChunk_length]; omega)]

/-- Claim C1, counterexample: with a first chunk of 10001 separator-free
characters the cap resets the buffer, so feeding
`[bigChunk, "b" ++ separator]` chunk-by-chunk emits the single record
`"b"`, while feeding the concatenation at once emits the single record
`bigChunk ++ "b"`; the two record sequences differ. -/
theorem processData_chunk_independence_cex :
    (feedAll [] [bigChunk, 'b' :: separator]).1 ≠
      (feed [] ([bigChunk, 'b' :: separator].flatten)).1 := by
  have hsecond : feed [] ('b' :: separator) = ([['b']], []) := by decide
  have hleft : (feedAll [] [bigChunk, 'b' :: separator]).1 = [['b']] := by
    simp only [feedAll]
    rw [feed_bigChunk_fst, feed_bigChunk_snd, hsecond]
    rfl
  have hx : '=' ∉ bigChunk ++ ['b'] := by
    intro hmem
    rcases List.mem_append.mp hmem with h | h
    · exact not_mem_bigChunk h
    · simp at h
  have hflat : [bigChunk, 'b' :: separator].flatten = (bigChunk ++ ['b']) ++ separator := by
    rw [List.flatten_cons, List.flatten_cons, List.flatten_nil, List.append_nil,
      List.append_assoc, List.singleton_append]
  have hsplit2 : splitOnL separator ((bigChunk ++ ['b']) ++ separator) =
      [bigChunk ++ ['b'], []] := by
    have h0 : splitOnL separator separator = [[], []] := by decide
    rw [separator_def] at h0 ⊢
    rw [splitOnL_prepend '=' sepTail (bigChunk ++ ['b']) ('=' :: sepTail) hx, h0]
    simp
  have hws : ∀ c ∈ bigChunk ++ ['b'], isTrimWS c = false := by
    intro c hc
    rcases List.mem_append.mp hc with h | h
    · unfold bigChunk at h
      rw [List.eq_of_mem_replicate h]
      decide
    · simp at h
      rw [h]
      decide
  have hright : (feed [] ([bigChunk, 'b' :: separator].flatten)).1 = [bigChunk ++ ['b']] := by
    rw [feed_fst, List.nil_append, hflat, hsplit2]
    show List.filter (fun r => !r.isEmpty) [trimL (bigChunk ++ ['b'])] = _
    rw [trimL_eq_self (bigChunk ++ ['b']) hws, List.filter_cons]
    rw [if_pos (by
      have : bigChunk ++ ['b'] ≠ [] := by
        intro habs
        have := congrArg List.length habs
        rw [List.length_append, bigChunk_length] at this
        simp at this
      simp [this])]
    rfl
  intro h
  rw [hleft, hright] at h
  have h1 : (['b'] : List Char) = bigChunk ++ ['b'] := (List.cons_eq_cons.mp h).1
  have h2 := congrArg List.length h1
  rw [List.length_append, bigChunk_length] at h2
  simp at h2

/-- Claim C1 (amended): feeding the chunks one `processData` call at a
time, starting from an empty buffer, emits the same sequence of trimmed
non-empty records, in the same order, as feeding the concatenation in a
single call — provided the 10000-character buffer-overflow reset is
never triggered during the chunked feeding (`noResetB`).  Without that
proviso the property fails, see `processData_chunk_independence_cex`. -/
theorem processData_chunk_independence (chunks : List (List Char))
    (h : noResetB [] chunks = true) :
    (feedAll [] chunks).1 = (feed [] chunks.flatten).1 := by
  rw [feedAll_eq_noCap chunks [] h, feedAllNoCap_flatten chunks [] rfl]
  rfl

/-- Witness for the amended claim C1, with a separator occurrence that
straddles the two chunks. -/
def wChunk1 : List Char := 'x' :: List.replicate 30 '='

/-- Second witness chunk, completing the separator started in `wChunk1`. -/
def wChunk2 : List Char := List.replicate 28 '=' ++ ['y']

theorem processData_chunk_independence_witness :
    noResetB [] [wChunk1, wChunk2] = true ∧
      (feedAll [] [wChunk1, wChunk2]).1 = (feed [] ([wChunk1, wChunk2].flatten)).1 :=
  ⟨by decide, processData_chunk_independence [wChunk1, wChunk2] (by decide)⟩

/-- Claim C7: in any single `processData` call whose retained buffer
exceeds the 10000-character cap after appending the chunk, the buffer is
reset to empty, while every record split out by that same call is still
emitted (the records agree with the uncapped framer's). -/
theorem processData_overflow_keeps_records (buf chunk : List Char)
    (h : 10000 < ((splitOnL separator (buf ++ chunk)).getLastD []).length) :
    (feed buf chunk).1 = (feedNoCap buf chunk).1 ∧ (feed buf chunk).2 = [] := by
  refine ⟨rfl, ?_⟩
  rw [feed_snd, if_pos h]

theorem processData_overflow_keeps_records_witness :
    10000 < ((splitOnL separator ([] ++ bigChunk)).getLastD []).length ∧
      (feed [] bigChunk).1 = (feedNoCap [] bigChunk).1 ∧ (feed [] bigChunk).2 = [] := by
  have h : 10000 < ((splitOnL separator ([] ++ bigChunk)).getLastD []).length := by
    rw [List.nil_append, splitOnL_bigChunk,
      show ([bigChunk].getLastD ([] : List Char)) = bigChunk from rfl, bigChunk_length]
    omega
  exact ⟨h, processData_overflow_keeps_records [] bigChunk h⟩

/-- The invariant of claim C10 on the retained buffer. -/
def bufferInvariant (buf : List Char) : Prop :=
  hasInfix separator buf = false ∧ buf.length ≤ 10000

/-- Claim C10: the retained buffer never contains a separator occurrence
and never exceeds 10000 characters; the invariant holds for the initial
empty buffer and is preserved by every `processData` call, for every
chunk (in fact the preservation needs no assumption on the old buffer). -/
theorem processData_buffer_invariant :
    bufferInvariant [] ∧
      ∀ buf chunk, bufferInvariant buf → bufferInvariant (feed buf chunk).2 := by
  constructor
  · exact ⟨rfl, by simp⟩
  · intro buf chunk _
    rw [bufferInvariant, feed_snd]
    by_cases h : 10000 < ((splitOnL separator (buf ++ chunk)).getLastD []).length
    · rw [if_pos h]
      exact ⟨rfl, by simp⟩
    · rw [if_neg h]
      refine ⟨?_, by omega⟩
      rw [separator_def]
      exact splitOnL_last_no_occur '=' sepTail (buf ++ chunk)

theorem processData_buffer_invariant_witness :
    bufferInvariant ['x'] ∧ bufferInvariant (feed ['x'] ['y']).2 := by
  have h : bufferInvariant ['x'] := by constructor <;> decide
  exact ⟨h, processData_buffer_invariant.2 ['x'] ['y'] h⟩

/-! ## Record parser (src/battery-parser.js)

The parser applies four regular expressions.  Each is embedded as a
hand-written matcher over `List Char` with JS semantics: an unanchored
search tries the pattern at every start position from the left, and the
leftmost successful match wins.  Inside the patterns every quantified
character class (`\\d+`, `\\s+`, `[-\\d.]+`, `[-\\d]+`, `[0-9A-Fa-f]+`) is
immediately followed by a literal character that is outside the class
(`S`, `:`, `)`, `V`, `=`, or a class-disjoint literal/class), so greedy
matching without backtracking — which is what the matchers below
implement — coincides with the regex semantics. -/

/-- JS `\\d`. -/
def isDigit (c : Char) : Bool := '0' ≤ c && c ≤ '9'

/-- JS `[0-9A-Fa-f]` (the module address class). -/
def isHexDigit (c : Char) : Bool :=
  isDigit c || ('a' ≤ c && c ≤ 'f') || ('A' ≤ c && c ≤ 'F')

/-- JS `\\s` (the code points that can occur on this serial link). -/
def isSpaceJS (c : Char) : Bool := isTrimWS c

/-- JS `[-\\d.]` (the voltage capture class). -/
def isVoltChar (c : Char) : Bool := c = '-' || isDigit c || c = '.'

/-- JS `[-\\d]` (the RAW capture class). -/
def isRawChar (c : Char) : Bool := c = '-' || isDigit c

/-- Decimal value of a digit string (the digits branch of JS
`parseInt`). -/
def digitsToNat (s : List Char) : Nat :=
  s.foldl (fun acc c => acc * 10 + (c.toNat - 48)) 0

/-- JS `parseInt` restricted to the `[-\\d]+` capture strings it receives
in this parser: optional leading minus then a maximal digit prefix.  A
capture with no leading digits yields NaN in JS; it is modelled as 0
(no claim depends on such inputs). -/
def parseIntJS (s : List Char) : Int :=
  match s with
  | '-' :: rest => -(digitsToNat (rest.takeWhile isDigit) : Int)
  | _ => (digitsToNat (s.takeWhile isDigit) : Int)

/-- Magnitude part of JS `parseFloat`: maximal digit prefix, optionally
followed by a dot and a maximal digit suffix. -/
def parseFloatMag (s : List Char) : ℚ :=
  match s.dropWhile isDigit with
  | '.' :: frac =>
    (digitsToNat (s.takeWhile isDigit) : ℚ) +
      (digitsToNat (frac.takeWhile isDigit) : ℚ) / (10 : ℚ) ^ (frac.takeWhile isDigit).length
  | _ => (digitsToNat (s.takeWhile isDigit) : ℚ)

/-- JS `parseFloat` restricted to the `[-\\d.]+` capture strings it
receives in this parser.  NaN-producing captures are modelled as 0 (no
claim depends on such inputs). -/
def parseFloatJS (s : List Char) : ℚ :=
  match s with
  | '-' :: rest => -(parseFloatMag rest)
  | '+' :: rest => parseFloatMag rest
  | _ => parseFloatMag s

/-- Match a literal fragment of a pattern, returning the rest of the
input. -/
def litS (pat : String) (s : List Char) : Option (List Char) :=
  if pat.data.isPrefixOf s then some (s.drop pat.data.length) else none

/-- Greedy one-or-more repetition of a character class, returning the
capture and the rest of the input. -/
def takeWhile1 (p : Char → Bool) (s : List Char) : Option (List Char × List Char) :=
  match s.takeWhile p with
  | [] => none
  | tk => some (tk, s.dropWhile p)

/-- Unanchored regex search: try the matcher at every start position,
left to right, and return the leftmost match. -/
def searchWith {α : Type} (m : List Char → Option α) : List Char → Option α
  | [] => m []
  | c :: rest =>
    match m (c :: rest) with
    | some r => some r
    | none => searchWith m rest

/-- The pattern `totalVoltage` (battery-parser.js:10):
`BATERIA TOTAL \\((\\d+)S\\):\\s+([-\\d.]+)V`, returning
(cell count, total voltage). -/
def matchTotalAt (s : List Char) : Option (Nat × ℚ) := do
  let s ← litS "BATERIA TOTAL (" s
  let (d, s) ← takeWhile1 isDigit s
  let s ← litS "S):" s
  let (_, s) ← takeWhile1 isSpaceJS s
  let (v, s) ← takeWhile1 isVoltChar s
  let _ ← litS "V" s
  some (digitsToNat d, parseFloatJS v)

/-- The pattern `individualCell` (battery-parser.js:11):
`Cel\\s+(\\d+):\\s+([-\\d.]+)V`, returning (cell number, voltage). -/
def matchCelAt (s : List Char) : Option (Nat × ℚ) := do
  let s ← litS "Cel" s
  let (_, s) ← takeWhile1 isSpaceJS s
  let (d, s) ← takeWhile1 isDigit s
  let s ← litS ":" s
  let (_, s) ← takeWhile1 isSpaceJS s
  let (v, s) ← takeWhile1 isVoltChar s
  let _ ← litS "V" s
  some (digitsToNat d, parseFloatJS v)

/-- The pattern `moduleHeader` (battery-parser.js:12):
`Módulo\\s+(\\d+)\\s+\\(0x([0-9A-Fa-f]+)\\):`, returning
(module id, address capture). -/
def matchModuleAt (s : List Char) : Option (Nat × List Char) := do
  let s ← litS "Módulo" s
  let (_, s) ← takeWhile1 isSpaceJS s
  let (d, s) ← takeWhile1 isDigit s
  let (_, s) ← takeWhile1 isSpaceJS s
  let s ← litS "(0x" s
  let (a, s) ← takeWhile1 isHexDigit s
  let _ ← litS "):" s
  some (digitsToNat d, a)

/-- The pattern `pinData` (battery-parser.js:13):
`A(\\d+)\\s+\\((\\d+)S\\):\\s+RAW=([-\\d]+)\\s+Tensão=([-\\d.]+)V`, returning
the four raw captures. -/
def matchPinAt (s : List Char) : Option (List Char × List Char × List Char × List Char) := do
  let s ← litS "A" s
  let (d1, s) ← takeWhile1 isDigit s
  let (_, s) ← takeWhile1 isSpaceJS s
  let s ← litS "(" s
  let (d2, s) ← takeWhile1 isDigit s
  let s ← litS "S):" s
  let (_, s) ← takeWhile1 isSpaceJS s
  let s ← litS "RAW=" s
  let (r, s) ← takeWhile1 isRawChar s
  let (_, s) ← takeWhile1 isSpaceJS s
  let s ← litS "Tensão=" s
  let (v, s) ← takeWhile1 isVoltChar s
  let _ ← litS "V" s
  some (d1, d2, r, v)

def searchTotal (s : List Char) : Option (Nat × ℚ) := searchWith matchTotalAt s

def searchCel (s : List Char) : Option (Nat × ℚ) := searchWith matchCelAt s

def searchModule (s : List Char) : Option (Nat × List Char) := searchWith matchModuleAt s

def searchPin (s : List Char) : Option (List Char × List Char × List Char × List Char) :=
  searchWith matchPinAt s

/-- Cell health status (the strings returned by `getCellStatus`). -/
inductive CellStatus
  | good
  | warning
  | danger
deriving DecidableEq

/-- `getCellStatus` (battery-parser.js:155-169), on the exact-rational
model of JS numbers.  Decimal literals 0.1, 3.0, 4.3, 2.5 are the
rationals 1/10, 3, 43/10, 5/2. -/
def getCellStatus (voltage : ℚ) : CellStatus :=
  let absVoltage := |voltage|
  if absVoltage < 1/10 then .danger
  else if 3 ≤ absVoltage ∧ absVoltage ≤ 43/10 then .good
  else if 43/10 < absVoltage ∨ (1/10 < absVoltage ∧ absVoltage < 5/2) then .warning
  else .good

/-- Write a natural number in decimal (used for the template string
interpolation of a parsed cell number).  Fuel-indexed, always called
with sufficient fuel. -/
def natToDecGo : Nat → Nat → List Char → List Char
  | 0, _, acc => acc
  | fuel + 1, n, acc =>
    if n < 10 then Char.ofNat (48 + n % 10) :: acc
    else natToDecGo fuel (n / 10) (Char.ofNat (48 + n % 10) :: acc)

/-- Decimal rendering of a `Nat` (JS template interpolation of a
number). -/
def natToDec (n : Nat) : List Char := natToDecGo (n + 1) n []

/-- One entry of `data.individualCells` (battery-parser.js:49-54). -/
structure ICell where
  name : List Char
  number : Nat
  individualVoltage : ℚ
  status : CellStatus
deriving DecidableEq

/-- One entry of a module's `pins` (battery-parser.js:79-85). -/
structure Pin where
  pin : List Char
  cell : List Char
  cellNumber : Nat
  raw : Int
  voltage : ℚ
deriving DecidableEq

/-- One entry of `data.modules` (battery-parser.js:68-72). -/
structure Module where
  id : Nat
  address : List Char
  pins : List Pin
deriving DecidableEq

/-- One entry of `data.cells` as pushed during the module/pin scan
(battery-parser.js:90-97), before reconciliation adds the individual
voltage and status. -/
structure CumCell where
  name : List Char
  number : Nat
  voltage : ℚ
  raw : Int
  module : Nat
  pin : List Char
deriving DecidableEq

/-- A finished cell after reconciliation (the same object with the
`individualVoltage` and `status` fields filled in). -/
structure Cell where
  name : List Char
  number : Nat
  voltage : ℚ
  raw : Int
  module : Nat
  pin : List Char
  individualVoltage : ℚ
  status : CellStatus
deriving DecidableEq

/-- Fill in the reconciled fields of a cumulative cell
(the in-place mutation `cell.individualVoltage = ...; cell.status = ...`
of battery-parser.js). -/
def withIV (c : CumCell) (iv : ℚ) (st : CellStatus) : Cell :=
  { name := c.name, number := c.number, voltage := c.voltage, raw := c.raw,
    module := c.module, pin := c.pin, individualVoltage := iv, status := st }

/-- The parsed result of one record (battery-parser.js:23-30; the
`timestamp` field is capture time and is not modelled). -/
structure Reading where
  totalVoltage : ℚ
  cellCount : Nat
  cells : List Cell
  individualCells : List ICell
  modules : List Module
deriving DecidableEq

/-- Line preprocessing (battery-parser.js:33): split on newlines, trim
each line, drop empty lines. -/
def parseLines (text : List Char) : List (List Char) :=
  ((splitOnL ['\n'] text).map trimL).filter (fun l => !l.isEmpty)

/-- One entry of the individual-cells pass for one line
(battery-parser.js:43-56). -/
def celEntry (line : List Char) : Option ICell :=
  (searchCel line).map fun nv =>
    { name := natToDec nv.1 ++ ['S'], number := nv.1,
      individualVoltage := nv.2, status := getCellStatus nv.2 }

/-- The individual-cells pass (battery-parser.js:43-56): every matching
line contributes one entry, in line order. -/
def parseIndividualCells (lines : List (List Char)) : List ICell :=
  lines.filterMap celEntry

/-- A `Pin` from the four captures of `pinData`
(battery-parser.js:79-85). -/
def mkPin (d1 d2 r v : List Char) : Pin :=
  { pin := 'A' :: d1, cell := d2 ++ ['S'], cellNumber := digitsToNat d2,
    raw := parseIntJS r, voltage := parseFloatJS v }

/-- The cumulative-cell record pushed alongside a pin
(battery-parser.js:90-97). -/
def mkCum (p : Pin) (mid : Nat) : CumCell :=
  { name := p.cell, number := p.cellNumber, voltage := p.voltage, raw := p.raw,
    module := mid, pin := p.pin }

/-- State of the module/pin scan (battery-parser.js:59-99):
the open module, the closed modules, and the flat cumulative-cells
list. -/
structure ModuleScan where
  currentModule : Option Module
  modules : List Module
  cums : List CumCell
deriving DecidableEq

/-- One line of the module/pin scan (battery-parser.js:61-99): a module
header closes the previous module and opens a new one (and skips the pin
check, the `continue`); otherwise a pin line with an open module appends
a pin to it and a cumulative cell to the flat list; any other line is
ignored. -/
def moduleStep (st : ModuleScan) (line : List Char) : ModuleScan :=
  match searchModule line with
  | some ma =>
    { currentModule := some { id := ma.1, address := ma.2, pins := [] },
      modules := st.modules ++ st.currentModule.toList,
      cums := st.cums }
  | none =>
    match searchPin line, st.currentModule with
    | some pd, some m =>
      { currentModule := some { m with pins := m.pins ++ [mkPin pd.1 pd.2.1 pd.2.2.1 pd.2.2.2] },
        modules := st.modules,
        cums := st.cums ++ [mkCum (mkPin pd.1 pd.2.1 pd.2.2.1 pd.2.2.2) m.id] }
    | _, _ => st

/-- The complete module/pin scan over all lines, closing the last open
module at the end (battery-parser.js:101-104). -/
def parseScan (lines : List (List Char)) : ModuleScan :=
  lines.foldl moduleStep { currentModule := none, modules := [], cums := [] }

def parseModules (lines : List (List Char)) : List Module :=
  (parseScan lines).modules ++ (parseScan lines).currentModule.toList

def parseCums (lines : List (List Char)) : List CumCell :=
  (parseScan lines).cums

/-- The sort of battery-parser.js:107, `(a, b) => a.number - b.number`.
ECMAScript requires `Array.prototype.sort` to be stable, and a stable
ascending sort is unique as a function, so the stable
`List.insertionSort` is a faithful model. -/
def sortCells (cums : List CumCell) : List CumCell :=
  cums.insertionSort (fun a b => a.number ≤ b.number)

/-- Differential fallback, tail of the loop (battery-parser.js:135-148):
each cell after the first gets its cumulative voltage minus the previous
cumulative voltage. -/
def calcGo (prev : ℚ) : List CumCell → List Cell
  | [] => []
  | c :: rest =>
    withIV c (c.voltage - prev) (getCellStatus (c.voltage - prev)) :: calcGo c.voltage rest

/-- `calculateIndividualVoltages` (battery-parser.js:135-148): the first
cell keeps its cumulative voltage as individual voltage; later cells are
differential; every status comes from `getCellStatus` of the computed
individual voltage. -/
def calculateIndividualVoltages : List CumCell → List Cell
  | [] => []
  | c :: rest => withIV c c.voltage (getCellStatus c.voltage) :: calcGo c.voltage rest

/-- Reconciliation against a non-empty individual-cells section
(battery-parser.js:111-121): for each cumulative cell, `find` the first
entry with the same number; on a hit copy its voltage and status, on a
miss default to 0 and danger. -/
def reconcile (ics : List ICell) (cums : List CumCell) : List Cell :=
  cums.map fun c =>
    match ics.find? (fun ic => ic.number == c.number) with
    | some ic => withIV c ic.individualVoltage ic.status
    | none => withIV c 0 .danger

/-- `parse` (battery-parser.js:22-128). -/
def parse (text : List Char) : Reading :=
  let lines := parseLines text
  let ics := parseIndividualCells lines
  let sorted := sortCells (parseCums lines)
  { totalVoltage := ((searchTotal text).map (fun t => t.2)).getD 0,
    cellCount := ((searchTotal text).map (fun t => t.1)).getD 0,
    cells := if ics.isEmpty then calculateIndividualVoltages sorted else reconcile ics sorted,
    individualCells := ics,
    modules := parseModules lines }

theorem parse_individualCells_eq (text : List Char) :
    (parse text).individualCells = parseIndividualCells (parseLines text) := rfl

theorem parse_cells_eq (text : List Char) :
    (parse text).cells =
      if (parseIndividualCells (parseLines text)).isEmpty then
        calculateIndividualVoltages (sortCells (parseCums (parseLines text)))
      else
        reconcile (parseIndividualCells (parseLines text))
          (sortCells (parseCums (parseLines text))) := rfl

theorem getCellStatus_eq (v : ℚ) :
    getCellStatus v =
      if |v| < 1/10 then CellStatus.danger
      else if 3 ≤ |v| ∧ |v| ≤ 43/10 then CellStatus.good
      else if 43/10 < |v| ∨ (1/10 < |v| ∧ |v| < 5/2) then CellStatus.warning
      else CellStatus.good := rfl

/-- Claim C3: when the individual-cells section is non-empty, every cell
whose number matches a section entry takes that entry's voltage and
status verbatim, and every cell without a matching entry gets voltage 0
and status danger; no cell receives a differentially computed value. -/
theorem parse_reconciliation_verbatim (text : List Char) (c : Cell)
    (hne : (parse text).individualCells ≠ [])
    (hmem : c ∈ (parse text).cells) :
    (∃ e ∈ (parse text).individualCells,
        e.number = c.number ∧ c.individualVoltage = e.individualVoltage ∧ c.status = e.status) ∨
      ((∀ e ∈ (parse text).individualCells, e.number ≠ c.number) ∧
        c.individualVoltage = 0 ∧ c.status = CellStatus.danger) := by
  rw [parse_individualCells_eq] at hne ⊢
  rw [parse_cells_eq, if_neg (by simp [List.isEmpty_eq_false.mpr hne])] at hmem
  obtain ⟨cum, hcum, hceq⟩ := List.mem_map.mp hmem
  cases hf : (parseIndividualCells (parseLines text)).find? (fun ic => ic.number == cum.number) with
  | some e =>
    rw [hf] at hceq
    left
    have hnum : e.number = cum.number := by
      have := List.find?_some hf
      simpa using this
    refine ⟨e, List.mem_of_find?_eq_some hf, ?_, ?_, ?_⟩ <;> rw [← hceq]
    · exact hnum
    · rfl
    · rfl
  | none =>
    rw [hf] at hceq
    right
    refine ⟨?_, ?_, ?_⟩
    · intro e he
      have hno := List.find?_eq_none.mp hf e he
      simp only [beq_iff_eq] at hno
      rw [← hceq]
      exact hno
    · rw [← hceq]
      rfl
    · rw [← hceq]
      rfl

theorem calcGo_consecutive :
    ∀ (l : List CumCell) (prev : ℚ) (i : Nat) (a b : Cell),
      (calcGo prev l)[i]? = some a → (calcGo prev l)[i + 1]? = some b →
      b.individualVoltage = b.voltage - a.voltage ∧
        b.status = getCellStatus b.individualVoltage := by
  intro l
  induction l with
  | nil => intro prev i a b ha _; simp [calcGo] at ha
  | cons c rest ih =>
    intro prev i a b ha hb
    cases i with
    | zero =>
      simp only [calcGo, List.getElem?_cons_zero, List.getElem?_cons_succ,
        Option.some.injEq] at ha hb
      cases rest with
      | nil => simp [calcGo] at hb
      | cons d rest2 =>
        simp only [calcGo, List.getElem?_cons_zero, Option.some.injEq] at hb
        rw [← ha, ← hb]
        exact ⟨rfl, rfl⟩
    | succ j =>
      simp only [calcGo, List.getElem?_cons_succ] at ha hb
      exact ih c.voltage j a b ha hb

theorem calcIV_consecutive (l : List CumCell) (i : Nat) (a b : Cell)
    (ha : (calculateIndividualVoltages l)[i]? = some a)
    (hb : (calculateIndividualVoltages l)[i + 1]? = some b) :
    b.individualVoltage = b.voltage - a.voltage ∧
      b.status = getCellStatus b.individualVoltage := by
  cases l with
  | nil => simp [calculateIndividualVoltages] at ha
  | cons c rest =>
    cases i with
    | zero =>
      simp only [calculateIndividualVoltages, List.getElem?_cons_zero,
        List.getElem?_cons_succ, Option.some.injEq] at ha hb
      cases rest with
      | nil => simp [calcGo] at hb
      | cons d rest2 =>
        simp only [calcGo, List.getElem?_cons_zero, Option.some.injEq] at hb
        rw [← ha, ← hb]
        exact ⟨rfl, rfl⟩
    | succ j =>
      simp only [calculateIndividualVoltages, List.getElem?_cons_succ] at ha hb
      exact calcGo_consecutive rest c.voltage j a b ha hb

theorem calcIV_head (l : List CumCell) (c : Cell)
    (h : (calculateIndividualVoltages l)[0]? = some c) :
    c.individualVoltage = c.voltage ∧ c.status = getCellStatus c.individualVoltage := by
  cases l with
  | nil => simp [calculateIndividualVoltages] at h
  | cons c0 rest =>
    simp only [calculateIndividualVoltages, List.getElem?_cons_zero, Option.some.injEq] at h
    rw [← h]
    exact ⟨rfl, rfl⟩

/-- Claim C4: when the individual-cells section is empty and cells are
present, the first cell (in the sorted cells array) takes its cumulative
voltage as individual voltage, every later cell takes the difference of
its and the previous cell's cumulative voltages, and every status is
`getCellStatus` of that individual voltage. -/
theorem parse_differential_fallback (text : List Char)
    (h0 : (parse text).individualCells = []) :
    (∀ c, ((parse text).cells)[0]? = some c →
        c.individualVoltage = c.voltage ∧ c.status = getCellStatus c.individualVoltage) ∧
      ∀ i a b, ((parse text).cells)[i]? = some a → ((parse text).cells)[i + 1]? = some b →
        b.individualVoltage = b.voltage - a.voltage ∧
          b.status = getCellStatus b.individualVoltage := by
  rw [parse_individualCells_eq] at h0
  have hc : (parse text).cells =
      calculateIndividualVoltages (sortCells (parseCums (parseLines text))) := by
    rw [parse_cells_eq, if_pos (by simp [h0])]
  rw [hc]
  exact ⟨fun c h => calcIV_head _ c h, fun i a b ha hb => calcIV_consecutive _ i a b ha hb⟩

theorem reconcile_map_number (ics : List ICell) (cums : List CumCell) :
    (reconcile ics cums).map (fun c => c.number) = cums.map (fun c => c.number) := by
  induction cums with
  | nil => rfl
  | cons c rest ih =>
    simp only [reconcile, List.map_cons] at ih ⊢
    rw [ih]
    cases ics.find? (fun ic => ic.number == c.number) <;> rfl

theorem calcGo_map_number :
    ∀ (l : List CumCell) (prev : ℚ),
      (calcGo prev l).map (fun c => c.number) = l.map (fun c => c.number) := by
  intro l
  induction l with
  | nil => intro _; rfl
  | cons c rest ih =>
    intro prev
    simp only [calcGo, List.map_cons, ih]
    rfl

theorem calcIV_map_number (l : List CumCell) :
    (calculateIndividualVoltages l).map (fun c => c.number) = l.map (fun c => c.number) := by
  cases l with
  | nil => rfl
  | cons c rest =>
    simp only [calculateIndividualVoltages, List.map_cons, calcGo_map_number]
    rfl

theorem parse_cells_map_number (text : List Char) :
    (parse text).cells.map (fun c => c.number) =
      (sortCells (parseCums (parseLines text))).map (fun c => c.number) := by
  rw [parse_cells_eq]
  by_cases h : (parseIndividualCells (parseLines text)).isEmpty = true
  · rw [if_pos h, calcIV_map_number]
  · rw [if_neg h, reconcile_map_number]

/-- Claim C2 (amended): the cells array is always sorted non-decreasingly
by cell number; and when the pin lines mention pairwise-distinct cell
numbers (the spec's single-sensor-per-cell assumption) it contains at
most one cell per number.  When pin lines repeat a cell number the array
keeps both cells, see `parse_cells_dup_cex`. -/
theorem parse_cells_sorted_nodup (text : List Char) :
    ((parse text).cells.map (fun c => c.number)).Pairwise (· ≤ ·) ∧
      (((parseCums (parseLines text)).map (fun c => c.number)).Nodup →
        ((parse text).cells.map (fun c => c.number)).Nodup) := by
  rw [parse_cells_map_number]
  have hperm : List.Perm (sortCells (parseCums (parseLines text)))
      (parseCums (parseLines text)) :=
    List.perm_insertionSort _ _
  constructor
  · haveI hto : IsTotal CumCell (fun a b => a.number ≤ b.number) :=
      ⟨fun a b => Nat.le_total a.number b.number⟩
    haveI htr : IsTrans CumCell (fun a b => a.number ≤ b.number) :=
      ⟨fun a b c hab hbc => Nat.le_trans hab hbc⟩
    have hs : List.Sorted (fun a b : CumCell => a.number ≤ b.number)
        (sortCells (parseCums (parseLines text))) :=
      List.sorted_insertionSort _ _
    rw [List.pairwise_map]
    exact hs
  · intro hnd
    exact ((hperm.map (fun c => c.number)).nodup_iff).mpr hnd

/-- Claim C6 (amended): when two or more entries of the individual-cells
section carry the same cell number, the entry whose voltage and status
take effect for a matching cell is the earliest (first) such line of the
record — `Array.prototype.find` returns the first match, so earlier
duplicates shadow later ones (the opposite of the claimed behaviour, see
`parse_duplicate_entry_cex`). -/
theorem parse_reconciliation_uses_first (text : List Char) (c : Cell) (e : ICell)
    (pre post : List ICell)
    (hsplit : (parse text).individualCells = pre ++ e :: post)
    (hpre : ∀ x ∈ pre, x.number ≠ c.number)
    (he : e.number = c.number)
    (hmem : c ∈ (parse text).cells) :
    c.individualVoltage = e.individualVoltage ∧ c.status = e.status := by
  have hne : (parse text).individualCells ≠ [] := by simp [hsplit]
  rw [parse_individualCells_eq] at hsplit hne
  rw [parse_cells_eq, if_neg (by simp [List.isEmpty_eq_false.mpr hne])] at hmem
  obtain ⟨cum, hcum, hceq⟩ := List.mem_map.mp hmem
  have hnum : c.number = cum.number := by
    cases hf : (parseIndividualCells (parseLines text)).find?
        (fun ic => ic.number == cum.number) <;>
      rw [hf] at hceq <;> rw [← hceq] <;> rfl
  have hfind : (parseIndividualCells (parseLines text)).find?
      (fun ic => ic.number == cum.number) = some e := by
    rw [hsplit, List.find?_append]
    have hp1 : pre.find? (fun ic => ic.number == cum.number) = none :=
      List.find?_eq_none.mpr (fun x hx => by simp [← hnum, hpre x hx])
    rw [hp1]
    simp only [Option.none_or]
    exact List.find?_cons_of_pos _ (by simp [he, hnum])
  rw [hfind] at hceq
  rw [← hceq]
  exact ⟨rfl, rfl⟩

section ConcreteEvaluation

/- Batteries marks rational arithmetic `@[irreducible]`; re-enabling
unfolding locally lets concrete runs of the parser be settled by
`decide` (the kernel ignores reducibility attributes, so this changes
nothing about what is provable). -/
attribute [local semireducible] Rat.add Rat.sub Rat.mul Rat.inv Rat.ofScientific

set_option maxRecDepth 8000

/-- Claim C5: `getCellStatus`, computed on the absolute value, returns
danger below 0.1; good between 3.0 and 4.3 inclusive; warning above 4.3
or strictly between 0.1 and 2.5; good for every other value; and on the
four quoted inputs returns good, danger, warning, warning. -/
theorem getCellStatus_spec (v : ℚ) :
    (|v| < 1/10 → getCellStatus v = CellStatus.danger) ∧
      ((3 ≤ |v| ∧ |v| ≤ 43/10) → getCellStatus v = CellStatus.good) ∧
      ((43/10 < |v| ∨ (1/10 < |v| ∧ |v| < 5/2)) → getCellStatus v = CellStatus.warning) ∧
      ((¬(|v| < 1/10) ∧ ¬(3 ≤ |v| ∧ |v| ≤ 43/10) ∧
          ¬(43/10 < |v| ∨ (1/10 < |v| ∧ |v| < 5/2))) → getCellStatus v = CellStatus.good) ∧
      getCellStatus (396/100) = CellStatus.good ∧
      getCellStatus (5/100) = CellStatus.danger ∧
      getCellStatus 2 = CellStatus.warning ∧
      getCellStatus (45/10) = CellStatus.warning := by
  refine ⟨?_, ?_, ?_, ?_, by decide, by decide, by decide, by decide⟩
  · intro h
    rw [getCellStatus_eq, if_pos h]
  · intro h
    rw [getCellStatus_eq, if_neg (by intro hd; linarith [h.1]), if_pos h]
  · intro h
    have hd : ¬(|v| < 1/10) := by
      intro hlt
      rcases h with h | h
      · linarith
      · linarith [h.1]
    have hg : ¬(3 ≤ |v| ∧ |v| ≤ 43/10) := by
      intro hg
      rcases h with h | h
      · linarith [hg.2]
      · linarith [h.2, hg.1]
    rw [getCellStatus_eq, if_neg hd, if_neg hg, if_pos h]
  · intro h
    obtain ⟨h1, h2, h3⟩ := h
    rw [getCellStatus_eq, if_neg h1, if_neg h2, if_neg h3]

theorem getCellStatus_spec_witness :
    ((3:ℚ) ≤ |(396:ℚ)/100| ∧ |(396:ℚ)/100| ≤ 43/10) ∧
      getCellStatus (396/100) = CellStatus.good :=
  ⟨by decide, (getCellStatus_spec (396/100)).2.1 (by decide)⟩

/-- A default cell (used only to name elements of parsed cell lists in
closed witness statements). -/
def dCell : Cell :=
  { name := [], number := 0, voltage := 0, raw := 0, module := 0, pin := [],
    individualVoltage := 0, status := CellStatus.danger }

/-- The worked example of claim C8. -/
def c8Text : List Char :=
  ("BATERIA TOTAL (2S): 7.95V\nCel 1: 3.96V\nCel 2: 3.99V\nMódulo 1 (0x48):\n  A0 (1S): RAW=22645  Tensão=3.963V\n  A1 (2S): RAW=22723  Tensão=7.953V").data

/-- Claim C8: the worked record parses to cell count 2, total voltage
7.95, exactly the two cells (1, 3.96, good) and (2, 3.99, good), and
exactly one module with id 1, address "48" and pins A0, A1 in order. -/
theorem parse_example_end_to_end :
    (parse c8Text).cellCount = 2 ∧ (parse c8Text).totalVoltage = 159/20 ∧
      ((parse c8Text).cells.map (fun c => (c.number, c.individualVoltage, c.status))) =
        [(1, 99/25, CellStatus.good), (2, 399/100, CellStatus.good)] ∧
      ((parse c8Text).modules.map (fun m => (m.id, m.address, m.pins.map (fun p => p.pin)))) =
        [(1, ['4', '8'], [['A', '0'], ['A', '1']])] :=
  ⟨by decide, by decide, by decide, by decide⟩

/-- Two different modules both reporting a pin for cell 1 (the same
`(1S)` label), refuting the no-duplicates part of claim C2. -/
def dupPinText : List Char :=
  ("Módulo 1 (0x48):\n  A0 (1S): RAW=1  Tensão=3.963V\nMódulo 2 (0x49):\n  A0 (1S): RAW=2  Tensão=3.900V").data

/-- Claim C2, counterexample: with the same cell number on pins of two
modules, the parsed cells array carries the number twice — `parse` never
deduplicates. -/
theorem parse_cells_dup_cex :
    ((parse dupPinText).cells.map (fun c => c.number)) = [1, 1] ∧
      ¬ ((parse dupPinText).cells.map (fun c => c.number)).Nodup :=
  ⟨by decide, by decide⟩

/-- Witness record for the amended claim C2, with pin lines out of
order. -/
def c2wText : List Char :=
  ("Módulo 1 (0x48):\n  A0 (2S): RAW=5  Tensão=7.953V\n  A1 (1S): RAW=4  Tensão=3.963V").data

theorem parse_cells_sorted_nodup_witness :
    ((parseCums (parseLines c2wText)).map (fun c => c.number)).Nodup ∧
      ((parse c2wText).cells.map (fun c => c.number)).Pairwise (· ≤ ·) ∧
      ((parse c2wText).cells.map (fun c => c.number)).Nodup := by
  have h : ((parseCums (parseLines c2wText)).map (fun c => c.number)).Nodup := by decide
  exact ⟨h, (parse_cells_sorted_nodup c2wText).1, (parse_cells_sorted_nodup c2wText).2 h⟩

/-- Witness record for claim C3: an individual-cells entry for cell 1
only, while pins report cells 1 and 2. -/
def c3Text : List Char :=
  ("BATERIA TOTAL (2S): 7.95V\nCel 1: 3.96V\nMódulo 1 (0x48):\n  A0 (1S): RAW=10  Tensão=3.963V\n  A1 (2S): RAW=20  Tensão=7.953V").data

theorem parse_reconciliation_verbatim_witness :
    ((parse c3Text).individualCells ≠ [] ∧
        (parse c3Text).cells.headD dCell ∈ (parse c3Text).cells) ∧
      ((∃ e ∈ (parse c3Text).individualCells,
          e.number = ((parse c3Text).cells.headD dCell).number ∧
            ((parse c3Text).cells.headD dCell).individualVoltage = e.individualVoltage ∧
            ((parse c3Text).cells.headD dCell).status = e.status) ∨
        ((∀ e ∈ (parse c3Text).individualCells,
            e.number ≠ ((parse c3Text).cells.headD dCell).number) ∧
          ((parse c3Text).cells.headD dCell).individualVoltage = 0 ∧
          ((parse c3Text).cells.headD dCell).status = CellStatus.danger)) := by
  have h1 : (parse c3Text).individualCells ≠ [] := by decide
  have h2 : (parse c3Text).cells.headD dCell ∈ (parse c3Text).cells := by decide
  exact ⟨⟨h1, h2⟩, parse_reconciliation_verbatim c3Text _ h1 h2⟩

/-- Witness record for claim C4: pins only, no individual-cells
section. -/
def c4Text : List Char :=
  ("Módulo 1 (0x48):\n  A0 (1S): RAW=22645  Tensão=3.963V\n  A1 (2S): RAW=22723  Tensão=7.953V").data

/-- First parsed cell of the C4 witness record. -/
def c4a : Cell := ((parse c4Text).cells[0]?).getD dCell

/-- Second parsed cell of the C4 witness record. -/
def c4b : Cell := ((parse c4Text).cells[1]?).getD dCell

theorem parse_differential_fallback_witness :
    ((parse c4Text).individualCells = [] ∧ (parse c4Text).cells[0]? = some c4a ∧
        (parse c4Text).cells[1]? = some c4b) ∧
      (c4b.individualVoltage = c4b.voltage - c4a.voltage ∧
        c4b.status = getCellStatus c4b.individualVoltage) := by
  have h0 : (parse c4Text).individualCells = [] := by decide
  have ha : (parse c4Text).cells[0]? = some c4a := by decide
  have hb : (parse c4Text).cells[1]? = some c4b := by decide
  exact ⟨⟨h0, ha, hb⟩, (parse_differential_fallback c4Text h0).2 0 c4a c4b ha hb⟩

/-- Two individual-cells lines for cell 1 — 3.96 V first, 2.00 V second
— plus one pin for cell 1. -/
def dupCelText : List Char :=
  ("Cel 1: 3.96V\nCel 1: 2.00V\nMódulo 1 (0x48):\n  A0 (1S): RAW=100  Tensão=3.963V").data

/-- Claim C6, counterexample: the record carries two entries for cell 1
(3.96 V then 2.00 V); the reconciled cell takes the EARLIER entry's
voltage 3.96 and status good, not the later line's 2.00/warning as the
claim states. -/
theorem parse_duplicate_entry_cex :
    ((parse dupCelText).individualCells.map (fun e => (e.number, e.individualVoltage))) =
        [(1, 99/25), (1, 2)] ∧
      ((parse dupCelText).cells.map (fun c => (c.number, c.individualVoltage, c.status))) =
        [(1, 99/25, CellStatus.good)] ∧
      ((parse dupCelText).cells.map (fun c => c.individualVoltage)) ≠ [2] :=
  ⟨by decide, by decide, by decide⟩

/-- Witness record for the amended claim C6: an entry for cell 2 comes
before the effective entry for cell 1. -/
def c6wText : List Char :=
  ("Cel 2: 1.00V\nCel 1: 3.96V\nMódulo 1 (0x48):\n  A0 (1S): RAW=7  Tensão=3.963V").data

/-- The earlier (shadowing-irrelevant) entry of the C6 witness record. -/
def c6wPre : List ICell :=
  [{ name := ['2', 'S'], number := 2, individualVoltage := 1, status := CellStatus.warning }]

/-- The effective entry of the C6 witness record. -/
def c6wEntry : ICell :=
  { name := ['1', 'S'], number := 1, individualVoltage := 99/25, status := CellStatus.good }

theorem parse_reconciliation_uses_first_witness :
    ((parse c6wText).individualCells = c6wPre ++ c6wEntry :: [] ∧
        c6wEntry.number = ((parse c6wText).cells.headD dCell).number ∧
        (parse c6wText).cells.headD dCell ∈ (parse c6wText).cells) ∧
      (((parse c6wText).cells.headD dCell).individualVoltage = c6wEntry.individualVoltage ∧
        ((parse c6wText).cells.headD dCell).status = c6wEntry.status) := by
  have h1 : (parse c6wText).individualCells = c6wPre ++ c6wEntry :: [] := by decide
  have h2 : c6wEntry.number = ((parse c6wText).cells.headD dCell).number := by decide
  have h3 : (parse c6wText).cells.headD dCell ∈ (parse c6wText).cells := by decide
  exact ⟨⟨h1, h2, h3⟩,
    parse_reconciliation_uses_first c6wText _ c6wEntry c6wPre [] h1 (by decide) h2 h3⟩

end ConcreteEvaluation

/-! ## Connection lifecycle teardown (src/serial-reader.js, `disconnect`
lines 190-222, `_cleanupConnection` lines 228-281, `_safeOperation`
lines 289-296)

The Web Serial objects are abstracted: `SRState` holds the reader's own
fields (whether each reference is set, the buffer, the flags and the
reported status), `Ext` the state of the underlying device handle, and
`Env` says which cleanup steps' awaited operations throw.
`_safeOperation` catches any throw and only logs it, so a failing step
leaves the external state unchanged and control continues; the model
also returns the trace of attempted steps, in order. -/

/-- Reported connection status (`updateStatus`). -/
inductive ConnStatus
  | connecting
  | connected
  | disconnected
  | error
deriving DecidableEq

/-- The serial reader's own state (the fields of the `SerialReader`
class touched by teardown).  Reference fields are modelled by whether
the reference is set. -/
structure SRState where
  port : Bool
  reader : Bool
  writer : Bool
  readableStreamClosed : Bool
  writableStreamClosed : Bool
  buffer : List Char
  keepReading : Bool
  isDisconnecting : Bool
  isConnected : Bool
  status : ConnStatus
deriving DecidableEq

/-- State of the external device handle. -/
structure Ext where
  readerLocked : Bool
  writerLocked : Bool
  portOpen : Bool
deriving DecidableEq

/-- Which cleanup steps' awaited operations throw. -/
structure Env where
  cancelFails : Bool
  closeWriterFails : Bool
  readableFails : Bool
  writableFails : Bool
  closePortFails : Bool
deriving DecidableEq

/-- The five guarded teardown steps, in source order. -/
inductive CleanStep
  | cancelReader
  | closeWriter
  | awaitReadablePipe
  | awaitWritablePipe
  | closePort
deriving DecidableEq

/-- `_safeOperation` (src/serial-reader.js:289-296): run the operation;
a throw is caught and logged, so on failure the external effect simply
does not happen and control continues. -/
def safeOperation (fails : Bool) (eff : Ext → Ext) (e : Ext) : Ext :=
  if fails then e else eff e

/-- `_cleanupConnection` (src/serial-reader.js:228-281): stop reading,
attempt each guarded step in sequence — every step wrapped in
`_safeOperation` — then clear every reference, the buffer and the
disconnecting flag.  Returns the new reader state, the new external
state and the trace of attempted steps. -/
def cleanupConnection (env : Env) (s : SRState) (e : Ext) :
    SRState × Ext × List CleanStep :=
  let s1 := { s with keepReading := false }
  let e1 := if s1.reader then
      safeOperation env.cancelFails (fun x => { x with readerLocked := false }) e
    else e
  let t1 : List CleanStep := if s1.reader then [CleanStep.cancelReader] else []
  let e2 := if s1.writer then
      safeOperation env.closeWriterFails (fun x => { x with writerLocked := false }) e1
    else e1
  let t2 : List CleanStep := if s1.writer then [CleanStep.closeWriter] else []
  let e3 := if s1.readableStreamClosed then safeOperation env.readableFails id e2 else e2
  let t3 : List CleanStep := if s1.readableStreamClosed then [CleanStep.awaitReadablePipe] else []
  let e4 := if s1.writableStreamClosed then safeOperation env.writableFails id e3 else e3
  let t4 : List CleanStep := if s1.writableStreamClosed then [CleanStep.awaitWritablePipe] else []
  let e5 := if s1.port then
      safeOperation env.closePortFails (fun x => { x with portOpen := false }) e4
    else e4
  let t5 : List CleanStep := if s1.port then [CleanStep.closePort] else []
  ({ s1 with
      port := false, reader := false, writer := false,
      readableStreamClosed := false, writableStreamClosed := false,
      isDisconnecting := false, buffer := [] },
    e5, t1 ++ t2 ++ t3 ++ t4 ++ t5)

/-- `disconnect` (src/serial-reader.js:190-222): no-op when already
disconnecting; when no port is held, only report disconnected; otherwise
set the disconnecting flag, stop the read loop, run the cleanup and
report disconnected.  The catch branch around the cleanup call is
unreachable in this model because every cleanup step is individually
caught by `_safeOperation`. -/
def disconnect (env : Env) (s : SRState) (e : Ext) : SRState × Ext × List CleanStep :=
  if s.isDisconnecting then (s, e, [])
  else if !s.port then
    ({ s with isConnected := false, status := ConnStatus.disconnected }, e, [])
  else
    let s1 := { s with isDisconnecting := true, keepReading := false }
    let r := cleanupConnection env s1 e
    ({ r.1 with isConnected := false, status := ConnStatus.disconnected }, r.2.1, r.2.2)

/-- Claim C9: in every teardown run through `disconnect` (not already
disconnecting, port held), the cleanup steps are attempted in source
order — each guarded step exactly when its reference is held, and the
trace does not depend on which steps fail — and afterwards the port,
reader and writer references are cleared, the buffer is empty, the
disconnecting flag is false and the reported state is disconnected,
regardless of any failures. -/
theorem disconnect_cleanup_spec (env : Env) (s : SRState) (e : Ext)
    (hd : s.isDisconnecting = false) (hp : s.port = true) :
    (disconnect env s e).1.port = false ∧
      (disconnect env s e).1.reader = false ∧
      (disconnect env s e).1.writer = false ∧
      (disconnect env s e).1.readableStreamClosed = false ∧
      (disconnect env s e).1.writableStreamClosed = false ∧
      (disconnect env s e).1.buffer = [] ∧
      (disconnect env s e).1.isDisconnecting = false ∧
      (disconnect env s e).1.isConnected = false ∧
      (disconnect env s e).1.status = ConnStatus.disconnected ∧
      (disconnect env s e).2.2 =
        (if s.reader then [CleanStep.cancelReader] else []) ++
          (if s.writer then [CleanStep.closeWriter] else []) ++
          (if s.readableStreamClosed then [CleanStep.awaitReadablePipe] else []) ++
          (if s.writableStreamClosed then [CleanStep.awaitWritablePipe] else []) ++
          [CleanStep.closePort] := by
  simp only [disconnect, hd, hp, Bool.false_eq_true, if_false, Bool.not_true, cleanupConnection]
  simp [List.append_assoc]

def c9Env : Env :=
  { cancelFails := true, closeWriterFails := true, readableFails := true,
    writableFails := true, closePortFails := true }

def c9State : SRState :=
  { port := true, reader := true, writer := true, readableStreamClosed := true,
    writableStreamClosed := true, buffer := ['x'], keepReading := true,
    isDisconnecting := false, isConnected := true, status := ConnStatus.connected }

def c9Ext : Ext :=
  { readerLocked := true, writerLocked := true, portOpen := true }

theorem disconnect_cleanup_spec_witness :
    (c9State.isDisconnecting = false ∧ c9State.port = true) ∧
      ((disconnect c9Env c9State c9Ext).1.port = false ∧
        (disconnect c9Env c9State c9Ext).1.reader = false ∧
        (disconnect c9Env c9State c9Ext).1.writer = false ∧
        (disconnect c9Env c9State c9Ext).1.buffer = [] ∧
        (disconnect c9Env c9State c9Ext).1.isDisconnecting = false ∧
        (disconnect c9Env c9State c9Ext).1.status = ConnStatus.disconnected ∧
        (disconnect c9Env c9State c9Ext).2.2 =
          [CleanStep.cancelReader, CleanStep.closeWriter, CleanStep.awaitReadablePipe,
            CleanStep.awaitWritablePipe, CleanStep.closePort]) := by
  have h := disconnect_cleanup_spec c9Env c9State c9Ext rfl rfl
  refine ⟨⟨rfl, rfl⟩, h.1, h.2.1, h.2.2.1, h.2.2.2.2.2.1, h.2.2.2.2.2.2.1, h.2.2.2.2.2.2.2.2.1, ?_⟩
  rw [h.2.2.2.2.2.2.2.2.2]
  decide
